import Mathlib

/-!
Shallow embedding of the RPN evaluator from src/src/evaluation.rs.

Strings are modelled as lists of characters; a Rust `i32` is modelled as an
`Int` together with explicit range checks against the i32 bounds wherever the
Rust code performs checked arithmetic.  Rust's `i32` division truncates toward
zero, which is `Int.tdiv` in Lean.  Fallible conversions (`char::to_digit`,
`RpnOperator::try_from`) return `Option` / `Except` as in the source.
-/

/-- The `RpnOperator` enum of the source. -/
inductive RpnOperator : Type where
  | Addition : RpnOperator
  | Subtraction : RpnOperator
  | Multiplication : RpnOperator
  | Division : RpnOperator
  deriving DecidableEq

/-- The `EvaluationResult` enum of the source: the sole output type of the
evaluator.  `Overflow` carries `last_valid_value1`, `last_valid_value2` and
`attempted_operation`, in that order. -/
inductive EvaluationResult : Type where
  | Success : Int → EvaluationResult
  | InputEmpty : EvaluationResult
  | InputNotComplete : EvaluationResult
  | InvalidCharacterFound : Char → EvaluationResult
  | FoundNonOperator : Char → EvaluationResult
  | FoundNonDigit : Char → EvaluationResult
  | InputNumberOverflow : EvaluationResult
  | DivByZero : EvaluationResult
  | Overflow : Int → Int → RpnOperator → EvaluationResult
  deriving DecidableEq

/-- The `EvaluationStep` enum of the source: the parser's 3-state machine. -/
inductive EvaluationStep : Type where
  | ReadingValue1 : EvaluationStep
  | ReadingValue2 : EvaluationStep
  | ReadingOperator : EvaluationStep
  deriving DecidableEq

/-- `EvaluationStep::advance` from the source (the cyclic transition
Value1 → Value2 → Operator → Value2 → …). -/
def EvaluationStep.advance : EvaluationStep → EvaluationStep
  | .ReadingValue1 => .ReadingValue2
  | .ReadingValue2 => .ReadingOperator
  | .ReadingOperator => .ReadingValue2

/-- `impl TryFrom<char> for RpnOperator` from the source. -/
def RpnOperator.tryFromChar (c : Char) : Except EvaluationResult RpnOperator :=
  if c = '+' then .ok .Addition
  else if c = '-' then .ok .Subtraction
  else if c = '*' then .ok .Multiplication
  else if c = '/' then .ok .Division
  else .error (.FoundNonOperator c)

/-- `char::is_valid_rpn_operator` from the source: true exactly when
`RpnOperator::try_from` succeeds. -/
def is_valid_rpn_operator (c : Char) : Bool :=
  match RpnOperator.tryFromChar c with
  | .ok _ => true
  | .error _ => false

/-- `i32::MIN`. -/
def I32_MIN : Int := -2147483648

/-- `i32::MAX`. -/
def I32_MAX : Int := 2147483647

/-- Whether an integer fits in `i32`. -/
def inI32 (n : Int) : Bool := decide (I32_MIN ≤ n ∧ n ≤ I32_MAX)

/-- `i32::checked_add`: the exact sum when it fits in `i32`, otherwise `none`. -/
def checked_add (a b : Int) : Option Int :=
  if inI32 (a + b) then some (a + b) else none

/-- `i32::checked_sub`: the exact difference when it fits in `i32`. -/
def checked_sub (a b : Int) : Option Int :=
  if inI32 (a - b) then some (a - b) else none

/-- `i32::checked_mul`: the exact product when it fits in `i32`. -/
def checked_mul (a b : Int) : Option Int :=
  if inI32 (a * b) then some (a * b) else none

/-- `i32::checked_div`: `none` on a zero divisor, otherwise the truncating
(toward-zero) quotient when it fits in `i32` (for i32 inputs the only failing
nonzero case is `i32::MIN / -1`). -/
def checked_div (a b : Int) : Option Int :=
  if b = 0 then none
  else if inI32 (Int.tdiv a b) then some (Int.tdiv a b) else none

/-- `char::is_ascii_digit`: `'0'` through `'9'`. -/
def is_ascii_digit (c : Char) : Bool := decide (48 ≤ c.toNat ∧ c.toNat ≤ 57)

/-- `char::to_digit(10)`: the numeric value of an ASCII decimal digit. -/
def to_digit (c : Char) : Option Nat :=
  if is_ascii_digit c then some (c.toNat - 48) else none

/-- The digit value used by the evaluator after the `is_ascii_digit` guard;
the source's `to_digit(10).unwrap() as i32`.  Outside the guard the value is
irrelevant (the source would panic; the guard makes that unreachable). -/
def digitOf (c : Char) : Int := ((to_digit c).getD 0 : Nat)

/-- Rust `char::is_whitespace` (the Unicode White_Space property), used by
`str::trim`. -/
def rust_is_whitespace (c : Char) : Bool :=
  decide ((9 ≤ c.toNat ∧ c.toNat ≤ 13) ∨ c.toNat = 32 ∨ c.toNat = 133 ∨
    c.toNat = 160 ∨ c.toNat = 5760 ∨ (8192 ≤ c.toNat ∧ c.toNat ≤ 8202) ∨
    c.toNat = 8232 ∨ c.toNat = 8233 ∨ c.toNat = 8239 ∨ c.toNat = 8287 ∨
    c.toNat = 12288)

/-- `str::trim`: strip leading and trailing whitespace. -/
def trim (s : List Char) : List Char :=
  ((s.dropWhile rust_is_whitespace).reverse.dropWhile rust_is_whitespace).reverse

/-- One iteration of the `for c in input.chars()` loop body of `evaluate_rpn`:
either the updated `(value1, value2, step)` triple, or the error the source
returns early.  The operator arm mirrors the source exactly: the guard
`c.is_valid_rpn_operator()` holds iff `RpnOperator::try_from(c)` succeeds, so
the guarded arm is entered exactly on `.ok o` (where the source's `unwrap`
cannot fail), and the source's final catch-all arm
(`invalid => InvalidCharacterFound`) is the `.error` branch. -/
def stepChar (c : Char) (value1 value2 : Int) (step : EvaluationStep) :
    Except EvaluationResult (Int × Int × EvaluationStep) :=
  if c = ' ' then
    let step' := step.advance
    .ok (value1, if step' = .ReadingValue2 then 0 else value2, step')
  else if is_ascii_digit c then
    match step with
    | .ReadingValue1 =>
      match checked_mul value1 10 with
      | some v =>
        match checked_add v (digitOf c) with
        | some v => .ok (v, value2, .ReadingValue1)
        | none => .error .InputNumberOverflow
      | none => .error .InputNumberOverflow
    | .ReadingValue2 =>
      match checked_mul value2 10 with
      | some v =>
        match checked_add v (digitOf c) with
        | some v => .ok (value1, v, .ReadingValue2)
        | none => .error .InputNumberOverflow
      | none => .error .InputNumberOverflow
    | .ReadingOperator => .error (.FoundNonOperator c)
  else
    match RpnOperator.tryFromChar c with
    | .ok o =>
      match step with
      | .ReadingOperator =>
        match o with
        | .Addition =>
          match checked_add value1 value2 with
          | some res => .ok (res, value2, .ReadingOperator)
          | none => .error (.Overflow value1 value2 .Addition)
        | .Subtraction =>
          match checked_sub value1 value2 with
          | some res => .ok (res, value2, .ReadingOperator)
          | none => .error (.Overflow value1 value2 .Subtraction)
        | .Multiplication =>
          match checked_mul value1 value2 with
          | some res => .ok (res, value2, .ReadingOperator)
          | none => .error (.Overflow value1 value2 .Multiplication)
        | .Division =>
          match checked_div value1 value2 with
          | some res => .ok (res, value2, .ReadingOperator)
          | none =>
            if value2 = 0 then .error .DivByZero
            else .error (.Overflow value1 value2 .Division)
      | .ReadingValue1 => .error (.FoundNonDigit c)
      | .ReadingValue2 => .error (.FoundNonDigit c)
    | .error _ => .error (.InvalidCharacterFound c)

/-- The character loop of `evaluate_rpn`: fold `stepChar` over the input,
returning the first error, or `Success(value1)` when the input is exhausted. -/
def evalLoop : List Char → Int → Int → EvaluationStep → EvaluationResult
  | [], value1, _, _ => .Success value1
  | c :: cs, value1, value2, step =>
    match stepChar c value1 value2 step with
    | .ok (v1, v2, s) => evalLoop cs v1 v2 s
    | .error e => e

/-- `evaluate_rpn` from the source: trim, then run the character loop starting
from `value1 = 0`, `value2 = 0`, `step = ReadingValue1`. -/
def evaluate_rpn (input : List Char) : EvaluationResult :=
  evalLoop (trim input) 0 0 .ReadingValue1

/-! Specification-side vocabulary used to state the claims. -/

/-- The exact (unbounded) integer meaning of one RPN operator; division is the
truncating-toward-zero quotient, matching i32 division. -/
def applyOp : RpnOperator → Int → Int → Int
  | .Addition, a, b => a + b
  | .Subtraction, a, b => a - b
  | .Multiplication, a, b => a * b
  | .Division, a, b => Int.tdiv a b

/-- Mathematically exact left-to-right RPN evaluation of a chain: starting
accumulator `a`, then for each `(operand, op)` pair apply `op` to the
accumulator and the operand. -/
def exactRpnEval (a : Int) (rest : List (Int × RpnOperator)) : Int :=
  rest.foldl (fun acc p => applyOp p.2 acc p.1) a

/-- Decimal shift-and-add value of a digit-character list, big-endian, on top
of a starting register value `r`. -/
def digitsVal : List Char → Int → Int
  | [], r => r
  | c :: cs, r => digitsVal cs (r * 10 + digitOf c)

/-- The integer value of a decimal operand token. -/
def tokVal (t : List Char) : Int := digitsVal t 0

/-- A well-formed decimal operand token: nonempty, all ASCII digits. -/
def isDigitTok (t : List Char) : Bool := !t.isEmpty && t.all is_ascii_digit

/-- The character denoting each operator. -/
def opChar : RpnOperator → Char
  | .Addition => '+'
  | .Subtraction => '-'
  | .Multiplication => '*'
  | .Division => '/'

/-- Render the tail of a chained RPN expression: for each `(operand, op)`
pair the characters `" <operand> <op>"`. -/
def renderOps : List (List Char × RpnOperator) → List Char
  | [] => []
  | (t, o) :: tl => ' ' :: (t ++ (' ' :: opChar o :: renderOps tl))

/-- Render a whole well-formed chained RPN expression
`"<first> <operand> <op> <operand> <op> …"`. -/
def renderRpn (t0 : List Char) (rest : List (List Char × RpnOperator)) :
    List Char :=
  t0 ++ renderOps rest

/-- No intermediate operation of the chain leaves i32 range, and no division
has a zero divisor. -/
def chainOk : Int → List (Int × RpnOperator) → Bool
  | _, [] => true
  | a, (b, o) :: rest =>
    decide (o = RpnOperator.Division → b ≠ 0) && inI32 (applyOp o a b) &&
      chainOk (applyOp o a b) rest

/-- Whether a result is an `Overflow` whose attempted operation is
`Division`. -/
def isDivOverflow : EvaluationResult → Bool
  | .Overflow _ _ .Division => true
  | _ => false

/-- Whether a result is one of the two reserved-but-unreachable variants
`InputEmpty` / `InputNotComplete`. -/
def isReservedVariant : EvaluationResult → Bool
  | .InputEmpty => true
  | .InputNotComplete => true
  | _ => false

example : evaluate_rpn ['1', ' ', '1', ' ', '+'] = .Success 2 := by decide
example : evaluate_rpn [' ', '1', ' ', '1', ' ', '*', ' '] = .Success 1 := by decide
example : evaluate_rpn ['5', '0', '4', '0', ' ', '0', ' ', '/'] = .DivByZero := by decide
example : evaluate_rpn ['3', '4', '4', ' ', '1', '4', '5', '4', '3', '6', '4', ' ', '-'] = .Success (-1454020) := by decide

/-! Basic helper lemmas. -/

lemma inI32_iff (n : Int) : inI32 n = true ↔ (I32_MIN ≤ n ∧ n ≤ I32_MAX) := by
  simp [inI32]

lemma digitOf_nonneg (c : Char) : 0 ≤ digitOf c := Int.natCast_nonneg _

lemma digitOf_le_nine (c : Char) (hc : is_ascii_digit c = true) :
    digitOf c ≤ 9 := by
  simp only [is_ascii_digit, decide_eq_true_eq] at hc
  simp only [digitOf, to_digit, is_ascii_digit, decide_eq_true_eq, if_pos hc,
    Option.getD_some]
  omega

lemma is_ascii_digit_ne_space (c : Char) (hc : is_ascii_digit c = true) :
    c ≠ ' ' := by
  intro h
  rw [h] at hc
  exact absurd hc (by decide)

lemma checked_add_of_in (a b : Int) (h1 : I32_MIN ≤ a + b)
    (h2 : a + b ≤ I32_MAX) : checked_add a b = some (a + b) := by
  simp [checked_add, inI32, h1, h2]

lemma checked_sub_of_in (a b : Int) (h1 : I32_MIN ≤ a - b)
    (h2 : a - b ≤ I32_MAX) : checked_sub a b = some (a - b) := by
  simp [checked_sub, inI32, h1, h2]

lemma checked_mul_of_in (a b : Int) (h1 : I32_MIN ≤ a * b)
    (h2 : a * b ≤ I32_MAX) : checked_mul a b = some (a * b) := by
  simp [checked_mul, inI32, h1, h2]

lemma checked_div_of_in (a b : Int) (hb : b ≠ 0) (h1 : I32_MIN ≤ Int.tdiv a b)
    (h2 : Int.tdiv a b ≤ I32_MAX) : checked_div a b = some (Int.tdiv a b) := by
  simp [checked_div, hb, inI32, h1, h2]

lemma digitsVal_ge (cs : List Char) : ∀ r : Int, 0 ≤ r → r ≤ digitsVal cs r := by
  induction cs with
  | nil => intro r _; simp [digitsVal]
  | cons c cs ih =>
    intro r hr
    have hd : 0 ≤ digitOf c := digitOf_nonneg c
    have h1 : r ≤ r * 10 + digitOf c := by linarith
    exact le_trans h1 (ih _ (by linarith))

lemma digitsVal_nonneg (cs : List Char) (r : Int) (hr : 0 ≤ r) :
    0 ≤ digitsVal cs r := le_trans hr (digitsVal_ge cs r hr)

/-- Effect of `stepChar` on a space. -/
lemma stepChar_space (v1 v2 : Int) (s : EvaluationStep) :
    stepChar ' ' v1 v2 s =
      .ok (v1, if s.advance = .ReadingValue2 then 0 else v2, s.advance) := rfl

/-- Effect of `stepChar` on an ASCII digit in state `ReadingValue1`. -/
lemma stepChar_digit_v1 (c : Char) (hc : is_ascii_digit c = true)
    (v1 v2 : Int) :
    stepChar c v1 v2 .ReadingValue1 =
      match checked_mul v1 10 with
      | some v =>
        match checked_add v (digitOf c) with
        | some v => .ok (v, v2, .ReadingValue1)
        | none => .error .InputNumberOverflow
      | none => .error .InputNumberOverflow := by
  simp [stepChar, is_ascii_digit_ne_space c hc, hc]

/-- Effect of `stepChar` on an ASCII digit in state `ReadingValue2`. -/
lemma stepChar_digit_v2 (c : Char) (hc : is_ascii_digit c = true)
    (v1 v2 : Int) :
    stepChar c v1 v2 .ReadingValue2 =
      match checked_mul v2 10 with
      | some v =>
        match checked_add v (digitOf c) with
        | some v => .ok (v1, v, .ReadingValue2)
        | none => .error .InputNumberOverflow
      | none => .error .InputNumberOverflow := by
  simp [stepChar, is_ascii_digit_ne_space c hc, hc]

/-- A digit run in state `ReadingValue1` accumulates into `value1` and stays
in state `ReadingValue1`, provided the accumulated value fits in i32. -/
lemma evalLoop_digits_v1 (ds : List Char) : ∀ (rest : List Char) (v1 v2 : Int),
    (∀ c ∈ ds, is_ascii_digit c = true) → 0 ≤ v1 →
    digitsVal ds v1 ≤ I32_MAX →
    evalLoop (ds ++ rest) v1 v2 .ReadingValue1 =
      evalLoop rest (digitsVal ds v1) v2 .ReadingValue1 := by
  induction ds with
  | nil => intro rest v1 v2 _ _ _; simp [digitsVal]
  | cons c cs ih =>
    intro rest v1 v2 hall h0 hmax
    have hc : is_ascii_digit c = true := hall c (List.mem_cons_self c cs)
    have hd0 : 0 ≤ digitOf c := digitOf_nonneg c
    have hdv : digitsVal (c :: cs) v1 = digitsVal cs (v1 * 10 + digitOf c) :=
      rfl
    have hnext0 : 0 ≤ v1 * 10 + digitOf c := by linarith
    have hge : v1 * 10 + digitOf c ≤ digitsVal cs (v1 * 10 + digitOf c) :=
      digitsVal_ge cs _ hnext0
    have hnextmax : v1 * 10 + digitOf c ≤ I32_MAX := by
      rw [hdv] at hmax; linarith
    have hminlt : I32_MIN < 0 := by decide
    have hmul : checked_mul v1 10 = some (v1 * 10) :=
      checked_mul_of_in v1 10 (by linarith) (by linarith)
    have hadd : checked_add (v1 * 10) (digitOf c) =
        some (v1 * 10 + digitOf c) :=
      checked_add_of_in _ _ (by linarith) hnextmax
    show evalLoop (c :: (cs ++ rest)) v1 v2 .ReadingValue1 = _
    rw [evalLoop, stepChar_digit_v1 c hc]
    simp only [hmul, hadd]
    rw [hdv]
    exact ih rest (v1 * 10 + digitOf c) v2
      (fun x hx => hall x (List.mem_cons_of_mem c hx)) hnext0
      (hdv ▸ hmax)

/-- A digit run in state `ReadingValue2` accumulates into `value2` and stays
in state `ReadingValue2`, provided the accumulated value fits in i32. -/
lemma evalLoop_digits_v2 (ds : List Char) : ∀ (rest : List Char) (v1 v2 : Int),
    (∀ c ∈ ds, is_ascii_digit c = true) → 0 ≤ v2 →
    digitsVal ds v2 ≤ I32_MAX →
    evalLoop (ds ++ rest) v1 v2 .ReadingValue2 =
      evalLoop rest v1 (digitsVal ds v2) .ReadingValue2 := by
  induction ds with
  | nil => intro rest v1 v2 _ _ _; simp [digitsVal]
  | cons c cs ih =>
    intro rest v1 v2 hall h0 hmax
    have hc : is_ascii_digit c = true := hall c (List.mem_cons_self c cs)
    have hd0 : 0 ≤ digitOf c := digitOf_nonneg c
    have hdv : digitsVal (c :: cs) v2 = digitsVal cs (v2 * 10 + digitOf c) :=
      rfl
    have hnext0 : 0 ≤ v2 * 10 + digitOf c := by linarith
    have hge : v2 * 10 + digitOf c ≤ digitsVal cs (v2 * 10 + digitOf c) :=
      digitsVal_ge cs _ hnext0
    have hnextmax : v2 * 10 + digitOf c ≤ I32_MAX := by
      rw [hdv] at hmax; linarith
    have hminlt : I32_MIN < 0 := by decide
    have hmul : checked_mul v2 10 = some (v2 * 10) :=
      checked_mul_of_in v2 10 (by linarith) (by linarith)
    have hadd : checked_add (v2 * 10) (digitOf c) =
        some (v2 * 10 + digitOf c) :=
      checked_add_of_in _ _ (by linarith) hnextmax
    show evalLoop (c :: (cs ++ rest)) v1 v2 .ReadingValue2 = _
    rw [evalLoop, stepChar_digit_v2 c hc]
    simp only [hmul, hadd]
    rw [hdv]
    exact ih rest v1 (v2 * 10 + digitOf c)
      (fun x hx => hall x (List.mem_cons_of_mem c hx)) hnext0
      (hdv ▸ hmax)

/-! Truncating-division bounds. -/

lemma tdiv_le_of_nonneg (x b : Int) (hx : 0 ≤ x) (hb : 0 ≤ b) :
    Int.tdiv x b ≤ x := by
  have ht0 : 0 ≤ Int.tdiv x b := Int.tdiv_nonneg hx hb
  calc Int.tdiv x b = ((Int.tdiv x b).natAbs : Int) :=
        (Int.natAbs_of_nonneg ht0).symm
    _ = ((x.natAbs.div b.natAbs : Nat) : Int) := by rw [Int.natAbs_tdiv]
    _ ≤ (x.natAbs : Int) := by exact_mod_cast Nat.div_le_self _ _
    _ = x := Int.natAbs_of_nonneg hx

lemma tdiv_in_range (a b : Int) (hb : 1 ≤ b) (h1 : I32_MIN ≤ a)
    (h2 : a ≤ I32_MAX) :
    I32_MIN ≤ Int.tdiv a b ∧ Int.tdiv a b ≤ I32_MAX := by
  have hb0 : (0 : Int) ≤ b := by linarith
  have hm : I32_MIN < 0 := by decide
  have hM : (0 : Int) ≤ I32_MAX := by decide
  rcases le_or_lt 0 a with ha | ha
  · have ht0 : 0 ≤ Int.tdiv a b := Int.tdiv_nonneg ha hb0
    have hle : Int.tdiv a b ≤ a := tdiv_le_of_nonneg a b ha hb0
    exact ⟨by linarith, by linarith⟩
  · have hna : 0 ≤ -a := by linarith
    have hle : Int.tdiv (-a) b ≤ -a := tdiv_le_of_nonneg (-a) b hna hb0
    have ht0 : 0 ≤ Int.tdiv (-a) b := Int.tdiv_nonneg hna hb0
    have hneg : Int.tdiv (-a) b = -Int.tdiv a b := Int.neg_tdiv a b
    rw [hneg] at hle ht0
    exact ⟨by linarith, by linarith⟩

lemma checked_div_pos (a b : Int) (hb : 1 ≤ b) (h1 : I32_MIN ≤ a)
    (h2 : a ≤ I32_MAX) : checked_div a b = some (Int.tdiv a b) := by
  obtain ⟨l, r⟩ := tdiv_in_range a b hb h1 h2
  exact checked_div_of_in a b (by linarith) l r

/-! Operator-character facts and the operator step. -/

lemma opChar_ne_space (o : RpnOperator) : opChar o ≠ ' ' := by
  cases o <;> decide

lemma opChar_not_digit (o : RpnOperator) :
    is_ascii_digit (opChar o) = false := by
  cases o <;> decide

lemma tryFromChar_opChar (o : RpnOperator) :
    RpnOperator.tryFromChar (opChar o) = .ok o := by
  cases o <;> rfl

/-- Applying a valid operator in `ReadingOperator` state when the exact result
fits in i32 (and the divisor of a division is nonzero) updates `value1` to the
exact result and keeps the state. -/
lemma stepChar_op (o : RpnOperator) (a b : Int)
    (hdiv : o = RpnOperator.Division → b ≠ 0)
    (h1 : I32_MIN ≤ applyOp o a b) (h2 : applyOp o a b ≤ I32_MAX) :
    stepChar (opChar o) a b .ReadingOperator =
      .ok (applyOp o a b, b, .ReadingOperator) := by
  have hns : ¬(opChar o = ' ') := opChar_ne_space o
  have hnd : ¬(is_ascii_digit (opChar o) = true) := by
    rw [opChar_not_digit o]; exact Bool.false_ne_true
  simp only [stepChar, if_neg hns, hnd, if_false, tryFromChar_opChar o]
  cases o with
  | Addition =>
    simp only [applyOp] at h1 h2
    simp [checked_add_of_in a b h1 h2, applyOp]
  | Subtraction =>
    simp only [applyOp] at h1 h2
    simp [checked_sub_of_in a b h1 h2, applyOp]
  | Multiplication =>
    simp only [applyOp] at h1 h2
    simp [checked_mul_of_in a b h1 h2, applyOp]
  | Division =>
    simp only [applyOp] at h1 h2
    have hb : b ≠ 0 := hdiv rfl
    simp [checked_div_of_in a b hb h1 h2, applyOp]

/-! Chain evaluation. -/

lemma chainOk_cons (a b : Int) (o : RpnOperator)
    (tl : List (Int × RpnOperator))
    (h : chainOk a ((b, o) :: tl) = true) :
    (o = RpnOperator.Division → b ≠ 0) ∧
      (I32_MIN ≤ applyOp o a b ∧ applyOp o a b ≤ I32_MAX) ∧
      chainOk (applyOp o a b) tl = true := by
  simp only [chainOk, Bool.and_eq_true, decide_eq_true_eq, inI32_iff] at h
  tauto

lemma isDigitTok_forall (t : List Char) (h : isDigitTok t = true) :
    ∀ c ∈ t, is_ascii_digit c = true := by
  simp only [isDigitTok, Bool.and_eq_true, List.all_eq_true] at h
  exact h.2

lemma tokVal_nonneg (t : List Char) : 0 ≤ tokVal t :=
  digitsVal_nonneg t 0 le_rfl

/-- Evaluating the rendered tail of a chain starting from accumulator `a`, in
any state whose `advance` is `ReadingValue2`, yields the exact left-to-right
evaluation, provided every operand token fits in i32 and no intermediate
operation leaves i32 range. -/
lemma evalLoop_chain (rest : List (List Char × RpnOperator)) :
    ∀ (a v2 : Int) (s : EvaluationStep), s.advance = .ReadingValue2 →
    (∀ p ∈ rest, isDigitTok p.1 = true ∧ tokVal p.1 ≤ I32_MAX) →
    chainOk a (rest.map fun p => (tokVal p.1, p.2)) = true →
    evalLoop (renderOps rest) a v2 s =
      .Success (exactRpnEval a (rest.map fun p => (tokVal p.1, p.2))) := by
  induction rest with
  | nil => intro a v2 s _ _ _; simp [renderOps, evalLoop, exactRpnEval]
  | cons p tl ih =>
    obtain ⟨t, o⟩ := p
    intro a v2 s hs htoks hchain
    simp only [List.map_cons] at hchain
    obtain ⟨hdiv, ⟨hlo, hhi⟩, hrest⟩ := chainOk_cons _ _ _ _ hchain
    have ht := htoks (t, o) (List.mem_cons_self _ _)
    have htd : ∀ c ∈ t, is_ascii_digit c = true := isDigitTok_forall t ht.1
    have e1 : evalLoop (' ' :: (t ++ (' ' :: opChar o :: renderOps tl))) a v2 s
        = evalLoop (t ++ (' ' :: opChar o :: renderOps tl)) a 0
            .ReadingValue2 := by
      rw [evalLoop, stepChar_space, hs]
      rfl
    have e2 : evalLoop (t ++ (' ' :: opChar o :: renderOps tl)) a 0
          .ReadingValue2
        = evalLoop (' ' :: opChar o :: renderOps tl) a (tokVal t)
            .ReadingValue2 :=
      evalLoop_digits_v2 t _ a 0 htd le_rfl ht.2
    have e3 : evalLoop (' ' :: opChar o :: renderOps tl) a (tokVal t)
          .ReadingValue2
        = evalLoop (opChar o :: renderOps tl) a (tokVal t)
            .ReadingOperator := by
      rw [evalLoop, stepChar_space]
      rfl
    have e4 : evalLoop (opChar o :: renderOps tl) a (tokVal t)
          .ReadingOperator
        = evalLoop (renderOps tl) (applyOp o a (tokVal t)) (tokVal t)
            .ReadingOperator := by
      rw [evalLoop, stepChar_op o a (tokVal t) hdiv hlo hhi]
    show evalLoop (' ' :: (t ++ (' ' :: opChar o :: renderOps tl))) a v2 s = _
    rw [e1, e2, e3, e4]
    rw [ih (applyOp o a (tokVal t)) (tokVal t) .ReadingOperator rfl
      (fun q hq => htoks q (List.mem_cons_of_mem _ hq)) hrest]
    rfl

/-! Trim facts. -/

lemma digit_not_ws (c : Char) (hc : is_ascii_digit c = true) :
    rust_is_whitespace c = false := by
  simp only [is_ascii_digit, decide_eq_true_eq] at hc
  simp only [rust_is_whitespace, decide_eq_false_iff_not]
  omega

lemma opChar_not_ws (o : RpnOperator) :
    rust_is_whitespace (opChar o) = false := by
  cases o <;> decide

lemma mem_of_getLast? {α : Type} {l : List α} {a : α}
    (h : l.getLast? = some a) : a ∈ l := by
  cases l with
  | nil => exact absurd h (by simp)
  | cons x xs =>
    have hne : x :: xs ≠ [] := List.cons_ne_nil x xs
    rw [List.getLast?_eq_getLast _ hne] at h
    exact (Option.some.inj h) ▸ List.getLast_mem hne

/-- `trim` is the identity on a list that neither starts nor ends with
whitespace. -/
lemma trim_eq_self (l : List Char)
    (h1 : ∀ c, l.head? = some c → rust_is_whitespace c = false)
    (h2 : ∀ c, l.getLast? = some c → rust_is_whitespace c = false) :
    trim l = l := by
  cases l with
  | nil => rfl
  | cons c cs =>
    have hc : rust_is_whitespace c = false := h1 c rfl
    have hrevne : (c :: cs).reverse ≠ [] := by simp
    obtain ⟨d, tl', hrev⟩ := List.exists_cons_of_ne_nil hrevne
    have hd : rust_is_whitespace d = false := by
      apply h2
      rw [← List.head?_reverse, hrev]
      rfl
    show (((c :: cs).dropWhile
        rust_is_whitespace).reverse.dropWhile rust_is_whitespace).reverse
        = c :: cs
    rw [List.dropWhile_cons, hc]
    simp only [Bool.false_eq_true, if_false]
    rw [hrev, List.dropWhile_cons, hd]
    simp only [Bool.false_eq_true, if_false]
    rw [← hrev, List.reverse_reverse]

/-- The rendered tail of a nonempty chain ends with an operator character. -/
lemma renderOps_concat (p : List Char × RpnOperator)
    (tl : List (List Char × RpnOperator)) :
    ∃ (l : List Char) (o : RpnOperator),
      renderOps (p :: tl) = l ++ [opChar o] := by
  induction tl generalizing p with
  | nil =>
    obtain ⟨t, o⟩ := p
    exact ⟨' ' :: (t ++ [' ']), o, by simp [renderOps]⟩
  | cons q tl ih =>
    obtain ⟨t, o⟩ := p
    obtain ⟨l, o', hl⟩ := ih q
    refine ⟨' ' :: (t ++ (' ' :: opChar o :: l)), o', ?_⟩
    show ' ' :: (t ++ (' ' :: opChar o :: renderOps (q :: tl))) = _
    rw [hl]
    simp

lemma isDigitTok_ne_nil (t : List Char) (h : isDigitTok t = true) :
    t ≠ [] := by
  intro hnil
  subst hnil
  exact absurd h (by decide)

/-- C1: for every input that is a well-formed whitespace-delimited RPN chain
`"n0 n1 op1 n2 op2 …"` of decimal operand tokens whose values fit in i32,
with no intermediate operation leaving i32 range (and no zero divisor),
`evaluate_rpn` returns `Success v` where `v` is the mathematically exact
left-to-right RPN evaluation of the chain (division being the i32 truncating
division). -/
theorem claim_C1_exact_evaluation (t0 : List Char)
    (rest : List (List Char × RpnOperator))
    (h0 : isDigitTok t0 = true) (h0v : tokVal t0 ≤ I32_MAX)
    (hts : ∀ p ∈ rest, isDigitTok p.1 = true ∧ tokVal p.1 ≤ I32_MAX)
    (hchain : chainOk (tokVal t0)
      (rest.map fun p => (tokVal p.1, p.2)) = true) :
    evaluate_rpn (renderRpn t0 rest) =
      .Success (exactRpnEval (tokVal t0)
        (rest.map fun p => (tokVal p.1, p.2))) := by
  have hne : t0 ≠ [] := isDigitTok_ne_nil t0 h0
  have hdigits : ∀ c ∈ t0, is_ascii_digit c = true := isDigitTok_forall t0 h0
  have htrim : trim (renderRpn t0 rest) = renderRpn t0 rest := by
    apply trim_eq_self
    · intro c hc
      cases t0 with
      | nil => exact absurd rfl hne
      | cons x xs =>
        have hx : (renderRpn (x :: xs) rest).head? = some x := rfl
        rw [hx] at hc
        exact digit_not_ws x (hdigits x (List.mem_cons_self x xs)) ▸
          congrArg rust_is_whitespace (Option.some.inj hc).symm
    · intro c hc
      cases rest with
      | nil =>
        have hr : renderRpn t0 [] = t0 := by simp [renderRpn, renderOps]
        rw [hr] at hc
        exact digit_not_ws c (hdigits c (mem_of_getLast? hc))
      | cons p tl =>
        obtain ⟨l, o, hl⟩ := renderOps_concat p tl
        rw [renderRpn, hl, ← List.append_assoc, List.getLast?_concat] at hc
        rw [← Option.some.inj hc]
        exact opChar_not_ws o
  rw [evaluate_rpn, htrim]
  show evalLoop (t0 ++ renderOps rest) 0 0 .ReadingValue1 = _
  rw [evalLoop_digits_v1 t0 _ 0 0 hdigits le_rfl h0v]
  exact evalLoop_chain rest (tokVal t0) 0 .ReadingValue1 rfl hts hchain

/-- Witness for C1 at the concrete input `"5 5 + 5 +"`, whose exact
evaluation is 15. -/
theorem claim_C1_exact_evaluation_witness :
    evaluate_rpn ['5', ' ', '5', ' ', '+', ' ', '5', ' ', '+'] =
      .Success 15 := by
  have h := claim_C1_exact_evaluation ['5']
    [(['5'], RpnOperator.Addition), (['5'], RpnOperator.Addition)]
    (by decide) (by decide) (by decide) (by decide)
  exact h

/-! Characterizations of the checked operations' `some` results. -/

lemma checked_add_some (a b r : Int) (h : checked_add a b = some r) :
    r = a + b ∧ I32_MIN ≤ r ∧ r ≤ I32_MAX := by
  simp only [checked_add] at h
  split_ifs at h with hi
  obtain rfl := Option.some.inj h
  exact ⟨rfl, (inI32_iff _).mp hi⟩

lemma checked_sub_some (a b r : Int) (h : checked_sub a b = some r) :
    r = a - b ∧ I32_MIN ≤ r ∧ r ≤ I32_MAX := by
  simp only [checked_sub] at h
  split_ifs at h with hi
  obtain rfl := Option.some.inj h
  exact ⟨rfl, (inI32_iff _).mp hi⟩

lemma checked_mul_some (a b r : Int) (h : checked_mul a b = some r) :
    r = a * b ∧ I32_MIN ≤ r ∧ r ≤ I32_MAX := by
  simp only [checked_mul] at h
  split_ifs at h with hi
  obtain rfl := Option.some.inj h
  exact ⟨rfl, (inI32_iff _).mp hi⟩

lemma checked_div_some (a b r : Int) (h : checked_div a b = some r) :
    r = Int.tdiv a b ∧ I32_MIN ≤ r ∧ r ≤ I32_MAX := by
  simp only [checked_div] at h
  split_ifs at h with hb hi
  obtain rfl := Option.some.inj h
  exact ⟨rfl, (inI32_iff _).mp hi⟩

lemma tryFromChar_ok_of_valid (c : Char) (h : is_valid_rpn_operator c = true) :
    ∃ o, RpnOperator.tryFromChar c = .ok o := by
  unfold is_valid_rpn_operator at h
  cases htf : RpnOperator.tryFromChar c with
  | ok o => exact ⟨o, rfl⟩
  | error e => rw [htf] at h; exact absurd h (by simp)

lemma valid_op_char_cases (c : Char) (h : is_valid_rpn_operator c = true) :
    c = '+' ∨ c = '-' ∨ c = '*' ∨ c = '/' := by
  unfold is_valid_rpn_operator RpnOperator.tryFromChar at h
  split_ifs at h with h1 h2 h3 h4
  · exact Or.inl h1
  · exact Or.inr (Or.inl h2)
  · exact Or.inr (Or.inr (Or.inl h3))
  · exact Or.inr (Or.inr (Or.inr h4))

/-- An ASCII digit while an operator is expected. -/
lemma stepChar_digit_op (c : Char) (hc : is_ascii_digit c = true)
    (v1 v2 : Int) :
    stepChar c v1 v2 .ReadingOperator = .error (.FoundNonOperator c) := by
  simp [stepChar, is_ascii_digit_ne_space c hc, hc]

/-- C2: a `'/'` in `ReadingOperator` state performs checked truncating
division: on success `value1` becomes the truncated quotient; when the checked
division fails with `value2 = 0` the result is `DivByZero`; any other failure
yields `Overflow` carrying the pre-operation `value1`, `value2` and
`Division`; and `evaluate_rpn "2004 6 /" = Success 334`. -/
theorem claim_C2_division_semantics (v1 v2 : Int) :
    (checked_div v1 v2 = none → v2 = 0 →
      stepChar '/' v1 v2 .ReadingOperator = .error .DivByZero) ∧
    (checked_div v1 v2 = none → ¬(v2 = 0) →
      stepChar '/' v1 v2 .ReadingOperator =
        .error (.Overflow v1 v2 .Division)) ∧
    (∀ r, checked_div v1 v2 = some r →
      r = Int.tdiv v1 v2 ∧
      stepChar '/' v1 v2 .ReadingOperator = .ok (r, v2, .ReadingOperator)) ∧
    evaluate_rpn ['2', '0', '0', '4', ' ', '6', ' ', '/'] = .Success 334 := by
  have hstep : stepChar '/' v1 v2 .ReadingOperator =
      (match checked_div v1 v2 with
        | some res => .ok (res, v2, .ReadingOperator)
        | none =>
          if v2 = 0 then .error .DivByZero
          else .error (.Overflow v1 v2 .Division)) := rfl
  refine ⟨?_, ?_, ?_, by decide⟩
  · intro hn h0
    subst h0
    rw [hstep]
    simp [hn]
  · intro hn h0
    rw [hstep]
    simp [hn, h0]
  · intro r hr
    refine ⟨(checked_div_some v1 v2 r hr).1, ?_⟩
    rw [hstep]
    simp [hr]

/-- Witness for C2: `5040 / 0` hits `DivByZero`; `i32::MIN / -1` hits
`Overflow` carrying the operands and `Division`; `2004 / 6` succeeds with the
truncated quotient `334`. -/
theorem claim_C2_division_semantics_witness :
    stepChar '/' 5040 0 .ReadingOperator = .error .DivByZero ∧
    stepChar '/' I32_MIN (-1) .ReadingOperator =
      .error (.Overflow I32_MIN (-1) .Division) ∧
    stepChar '/' 2004 6 .ReadingOperator = .ok (334, 6, .ReadingOperator) :=
  ⟨(claim_C2_division_semantics 5040 0).1 (by decide) rfl,
   (claim_C2_division_semantics I32_MIN (-1)).2.1 (by decide) (by decide),
   ((claim_C2_division_semantics 2004 6).2.2.1 334 (by decide)).2⟩

/-- C3: an ASCII digit while the state is `ReadingOperator` yields
`FoundNonOperator(c)`; an operator character while the state is
`ReadingValue1` or `ReadingValue2` (in particular an operator as the very
first non-space token) yields `FoundNonDigit(c)`. -/
theorem claim_C3_wrong_token_class (c : Char) (v1 v2 : Int)
    (s : EvaluationStep) :
    (is_ascii_digit c = true →
      stepChar c v1 v2 .ReadingOperator = .error (.FoundNonOperator c)) ∧
    (is_valid_rpn_operator c = true →
      (s = .ReadingValue1 ∨ s = .ReadingValue2) →
      stepChar c v1 v2 s = .error (.FoundNonDigit c)) ∧
    evaluate_rpn ['+'] = .FoundNonDigit '+' := by
  refine ⟨fun hc => stepChar_digit_op c hc v1 v2, ?_, by decide⟩
  intro hv hs
  rcases valid_op_char_cases c hv with rfl | rfl | rfl | rfl <;>
    rcases hs with rfl | rfl <;> rfl

/-- Witness for C3: the digit `'3'` where an operator was expected, and the
operator `'+'` where the first operand was expected. -/
theorem claim_C3_wrong_token_class_witness :
    stepChar '3' 1 2 .ReadingOperator = .error (.FoundNonOperator '3') ∧
    stepChar '+' 0 0 .ReadingValue1 = .error (.FoundNonDigit '+') :=
  ⟨(claim_C3_wrong_token_class '3' 1 2 .ReadingValue1).1 (by decide),
   (claim_C3_wrong_token_class '+' 0 0 .ReadingValue1).2.1 (by decide)
     (Or.inl rfl)⟩

/-- C4 counterexample: at the character `'x'` in `ReadingOperator` state the
evaluator returns `InvalidCharacterFound('x')`, not `FoundNonOperator('x')`
as the claim states; likewise through the public interface on `"1 1 x"`. -/
theorem claim_C4_counterexample :
    stepChar 'x' 0 0 .ReadingOperator = .error (.InvalidCharacterFound 'x') ∧
    evaluate_rpn ['1', ' ', '1', ' ', 'x'] = .InvalidCharacterFound 'x' ∧
    decide (evaluate_rpn ['1', ' ', '1', ' ', 'x'] =
      .FoundNonOperator 'x') = false :=
  ⟨rfl, by decide, by decide⟩

/-- C4 amended: every character that is neither a space, nor an ASCII digit,
nor a recognized operator character yields `InvalidCharacterFound(c)` in
every state, including `ReadingOperator`. -/
theorem claim_C4_invalid_character (c : Char) (v1 v2 : Int)
    (s : EvaluationStep) (hsp : ¬(c = ' ')) (hd : is_ascii_digit c = false)
    (ho : is_valid_rpn_operator c = false) :
    stepChar c v1 v2 s = .error (.InvalidCharacterFound c) := by
  have htf : ∃ e, RpnOperator.tryFromChar c = .error e := by
    unfold is_valid_rpn_operator at ho
    cases htf : RpnOperator.tryFromChar c with
    | ok o => rw [htf] at ho; exact absurd ho (by simp)
    | error e => exact ⟨e, rfl⟩
  obtain ⟨e, he⟩ := htf
  simp [stepChar, hsp, hd, he]

/-- Witness for C4 (amended): the character `'x'` in `ReadingOperator`
state. -/
theorem claim_C4_invalid_character_witness :
    stepChar 'x' 7 8 .ReadingOperator = .error (.InvalidCharacterFound 'x') :=
  claim_C4_invalid_character 'x' 7 8 .ReadingOperator (by decide) (by decide)
    (by decide)

/-- C5: whenever a checked addition, subtraction or multiplication of
`(value1, value2)` fails, the evaluator returns `Overflow` carrying exactly
the pre-operation `value1`, the pre-operation `value2` and the attempted
operation (so `value1` is not modified before the error is returned). -/
theorem claim_C5_overflow_payload (v1 v2 : Int) :
    (checked_add v1 v2 = none →
      stepChar '+' v1 v2 .ReadingOperator =
        .error (.Overflow v1 v2 .Addition)) ∧
    (checked_sub v1 v2 = none →
      stepChar '-' v1 v2 .ReadingOperator =
        .error (.Overflow v1 v2 .Subtraction)) ∧
    (checked_mul v1 v2 = none →
      stepChar '*' v1 v2 .ReadingOperator =
        .error (.Overflow v1 v2 .Multiplication)) := by
  refine ⟨fun h => ?_, fun h => ?_, fun h => ?_⟩
  · have e : stepChar '+' v1 v2 .ReadingOperator =
        (match checked_add v1 v2 with
          | some res => .ok (res, v2, .ReadingOperator)
          | none => .error (.Overflow v1 v2 .Addition)) := rfl
    rw [e, h]
  · have e : stepChar '-' v1 v2 .ReadingOperator =
        (match checked_sub v1 v2 with
          | some res => .ok (res, v2, .ReadingOperator)
          | none => .error (.Overflow v1 v2 .Subtraction)) := rfl
    rw [e, h]
  · have e : stepChar '*' v1 v2 .ReadingOperator =
        (match checked_mul v1 v2 with
          | some res => .ok (res, v2, .ReadingOperator)
          | none => .error (.Overflow v1 v2 .Multiplication)) := rfl
    rw [e, h]

/-- Witness for C5: `MAX + 1`, `MIN - 1` and `MAX * 2` all fail and report
the untouched operands with the attempted operation. -/
theorem claim_C5_overflow_payload_witness :
    stepChar '+' I32_MAX 1 .ReadingOperator =
      .error (.Overflow I32_MAX 1 .Addition) ∧
    stepChar '-' I32_MIN 1 .ReadingOperator =
      .error (.Overflow I32_MIN 1 .Subtraction) ∧
    stepChar '*' I32_MAX 2 .ReadingOperator =
      .error (.Overflow I32_MAX 2 .Multiplication) :=
  ⟨(claim_C5_overflow_payload I32_MAX 1).1 (by decide),
   (claim_C5_overflow_payload I32_MIN 1).2.1 (by decide),
   (claim_C5_overflow_payload I32_MAX 2).2.2 (by decide)⟩

/-- C6: digit accumulation performs `reg = reg * 10 + digit` with the
multiplication and the addition both checked against i32 bounds; either check
failing returns `InputNumberOverflow` (a payload-free variant, so no partial
register value is exposed), and `"99999999999"` overflows. -/
theorem claim_C6_digit_accumulation (c : Char) (v1 v2 : Int)
    (hc : is_ascii_digit c = true) :
    (stepChar c v1 v2 .ReadingValue1 =
      match checked_mul v1 10 with
      | some m =>
        match checked_add m (digitOf c) with
        | some v => .ok (v, v2, .ReadingValue1)
        | none => .error .InputNumberOverflow
      | none => .error .InputNumberOverflow) ∧
    (stepChar c v1 v2 .ReadingValue2 =
      match checked_mul v2 10 with
      | some m =>
        match checked_add m (digitOf c) with
        | some v => .ok (v1, v, .ReadingValue2)
        | none => .error .InputNumberOverflow
      | none => .error .InputNumberOverflow) ∧
    evaluate_rpn ['9', '9', '9', '9', '9', '9', '9', '9', '9', '9', '9'] =
      .InputNumberOverflow :=
  ⟨stepChar_digit_v1 c hc v1 v2, stepChar_digit_v2 c hc v1 v2, by decide⟩

/-- Witness for C6: the digit `'7'` appended to register value 12 yields 127;
appended to a register at `(MAX - 7) / 10 + 1` it overflows. -/
theorem claim_C6_digit_accumulation_witness :
    stepChar '7' 12 0 .ReadingValue1 = .ok (127, 0, .ReadingValue1) ∧
    stepChar '7' 0 214748365 .ReadingValue2 = .error .InputNumberOverflow := by
  constructor
  · have h := (claim_C6_digit_accumulation '7' 12 0 (by decide)).1
    rw [h]
    exact rfl
  · have h := (claim_C6_digit_accumulation '7' 0 214748365 (by decide)).2.1
    rw [h]
    exact rfl

/-! Exhaustive analysis of `stepChar` outcomes. -/

/-- Every error `stepChar` can return, with the conditions under which a
division `Overflow` can arise. -/
lemma stepChar_error_cases (c : Char) (v1 v2 : Int) (s : EvaluationStep)
    (e : EvaluationResult) (h : stepChar c v1 v2 s = .error e) :
    e = .InputNumberOverflow ∨ e = .FoundNonOperator c ∨
    e = .FoundNonDigit c ∨ e = .InvalidCharacterFound c ∨ e = .DivByZero ∨
    ∃ o, e = .Overflow v1 v2 o ∧
      (o = RpnOperator.Division → checked_div v1 v2 = none ∧ ¬(v2 = 0)) := by
  by_cases hsp : c = ' '
  · subst hsp
    rw [stepChar_space] at h
    exact absurd h (by simp)
  by_cases hdg : is_ascii_digit c = true
  · cases s with
    | ReadingValue1 =>
      rw [stepChar_digit_v1 c hdg] at h
      cases hm : checked_mul v1 10 with
      | some m =>
        simp only [hm] at h
        cases ha : checked_add m (digitOf c) with
        | some v => simp [ha] at h
        | none =>
          simp only [ha] at h
          exact Or.inl (Except.error.inj h).symm
      | none =>
        simp only [hm] at h
        exact Or.inl (Except.error.inj h).symm
    | ReadingValue2 =>
      rw [stepChar_digit_v2 c hdg] at h
      cases hm : checked_mul v2 10 with
      | some m =>
        simp only [hm] at h
        cases ha : checked_add m (digitOf c) with
        | some v => simp [ha] at h
        | none =>
          simp only [ha] at h
          exact Or.inl (Except.error.inj h).symm
      | none =>
        simp only [hm] at h
        exact Or.inl (Except.error.inj h).symm
    | ReadingOperator =>
      rw [stepChar_digit_op c hdg] at h
      exact Or.inr (Or.inl (Except.error.inj h).symm)
  · unfold stepChar at h
    rw [if_neg hsp, if_neg hdg] at h
    cases htf : RpnOperator.tryFromChar c with
    | error e' =>
      simp only [htf] at h
      exact Or.inr (Or.inr (Or.inr (Or.inl (Except.error.inj h).symm)))
    | ok o =>
      simp only [htf] at h
      cases s with
      | ReadingValue1 =>
        exact Or.inr (Or.inr (Or.inl (Except.error.inj h).symm))
      | ReadingValue2 =>
        exact Or.inr (Or.inr (Or.inl (Except.error.inj h).symm))
      | ReadingOperator =>
        cases o with
        | Addition =>
          cases hca : checked_add v1 v2 with
          | some res => simp [hca] at h
          | none =>
            simp only [hca] at h
            refine Or.inr (Or.inr (Or.inr (Or.inr (Or.inr
              ⟨.Addition, (Except.error.inj h).symm, ?_⟩))))
            intro hx
            cases hx
        | Subtraction =>
          cases hcs : checked_sub v1 v2 with
          | some res => simp [hcs] at h
          | none =>
            simp only [hcs] at h
            refine Or.inr (Or.inr (Or.inr (Or.inr (Or.inr
              ⟨.Subtraction, (Except.error.inj h).symm, ?_⟩))))
            intro hx
            cases hx
        | Multiplication =>
          cases hcm : checked_mul v1 v2 with
          | some res => simp [hcm] at h
          | none =>
            simp only [hcm] at h
            refine Or.inr (Or.inr (Or.inr (Or.inr (Or.inr
              ⟨.Multiplication, (Except.error.inj h).symm, ?_⟩))))
            intro hx
            cases hx
        | Division =>
          cases hcd : checked_div v1 v2 with
          | some res => simp [hcd] at h
          | none =>
            simp only [hcd] at h
            by_cases hz : v2 = 0
            · rw [if_pos hz] at h
              exact Or.inr (Or.inr (Or.inr (Or.inr (Or.inl
                (Except.error.inj h).symm))))
            · rw [if_neg hz] at h
              exact Or.inr (Or.inr (Or.inr (Or.inr (Or.inr
                ⟨.Division, (Except.error.inj h).symm, fun _ => ⟨rfl, hz⟩⟩))))

/-- `stepChar` preserves the register invariant: `value1` stays in i32 range
and `value2` stays in `[0, i32::MAX]`. -/
lemma stepChar_ok_invariant (c : Char) (v1 v2 : Int) (s : EvaluationStep)
    (h1 : I32_MIN ≤ v1) (h2 : v1 ≤ I32_MAX) (h3 : 0 ≤ v2) (h4 : v2 ≤ I32_MAX)
    (v1' v2' : Int) (s' : EvaluationStep)
    (h : stepChar c v1 v2 s = .ok (v1', v2', s')) :
    I32_MIN ≤ v1' ∧ v1' ≤ I32_MAX ∧ 0 ≤ v2' ∧ v2' ≤ I32_MAX := by
  have hMAXpos : (0 : Int) ≤ I32_MAX := by decide
  by_cases hsp : c = ' '
  · subst hsp
    rw [stepChar_space] at h
    simp only [Except.ok.injEq, Prod.mk.injEq] at h
    obtain ⟨rfl, rfl, rfl⟩ := h
    split_ifs
    · exact ⟨h1, h2, le_rfl, hMAXpos⟩
    · exact ⟨h1, h2, h3, h4⟩
  by_cases hdg : is_ascii_digit c = true
  · cases s with
    | ReadingValue1 =>
      rw [stepChar_digit_v1 c hdg] at h
      cases hm : checked_mul v1 10 with
      | some m =>
        simp only [hm] at h
        cases ha : checked_add m (digitOf c) with
        | some v =>
          obtain ⟨-, hlo, hhi⟩ := checked_add_some m (digitOf c) v ha
          simp only [ha, Except.ok.injEq, Prod.mk.injEq] at h
          obtain ⟨rfl, rfl, rfl⟩ := h
          exact ⟨hlo, hhi, h3, h4⟩
        | none => simp [ha] at h
      | none => simp [hm] at h
    | ReadingValue2 =>
      rw [stepChar_digit_v2 c hdg] at h
      cases hm : checked_mul v2 10 with
      | some m =>
        simp only [hm] at h
        cases ha : checked_add m (digitOf c) with
        | some v =>
          obtain ⟨heq, hlo, hhi⟩ := checked_add_some m (digitOf c) v ha
          obtain ⟨hmeq, -, -⟩ := checked_mul_some v2 10 m hm
          have hd0 : 0 ≤ digitOf c := digitOf_nonneg c
          have hv0 : 0 ≤ v := by rw [heq, hmeq]; positivity
          simp only [ha, Except.ok.injEq, Prod.mk.injEq] at h
          obtain ⟨rfl, rfl, rfl⟩ := h
          exact ⟨h1, h2, hv0, hhi⟩
        | none => simp [ha] at h
      | none => simp [hm] at h
    | ReadingOperator =>
      rw [stepChar_digit_op c hdg] at h
      exact absurd h (by simp)
  · unfold stepChar at h
    rw [if_neg hsp, if_neg hdg] at h
    cases htf : RpnOperator.tryFromChar c with
    | error e' => simp [htf] at h
    | ok o =>
      simp only [htf] at h
      cases s with
      | ReadingValue1 => simp at h
      | ReadingValue2 => simp at h
      | ReadingOperator =>
        cases o with
        | Addition =>
          cases hca : checked_add v1 v2 with
          | some res =>
            obtain ⟨-, hlo, hhi⟩ := checked_add_some v1 v2 res hca
            simp only [hca, Except.ok.injEq, Prod.mk.injEq] at h
            obtain ⟨rfl, rfl, rfl⟩ := h
            exact ⟨hlo, hhi, h3, h4⟩
          | none => simp [hca] at h
        | Subtraction =>
          cases hcs : checked_sub v1 v2 with
          | some res =>
            obtain ⟨-, hlo, hhi⟩ := checked_sub_some v1 v2 res hcs
            simp only [hcs, Except.ok.injEq, Prod.mk.injEq] at h
            obtain ⟨rfl, rfl, rfl⟩ := h
            exact ⟨hlo, hhi, h3, h4⟩
          | none => simp [hcs] at h
        | Multiplication =>
          cases hcm : checked_mul v1 v2 with
          | some res =>
            obtain ⟨-, hlo, hhi⟩ := checked_mul_some v1 v2 res hcm
            simp only [hcm, Except.ok.injEq, Prod.mk.injEq] at h
            obtain ⟨rfl, rfl, rfl⟩ := h
            exact ⟨hlo, hhi, h3, h4⟩
          | none => simp [hcm] at h
        | Division =>
          cases hcd : checked_div v1 v2 with
          | some res =>
            obtain ⟨-, hlo, hhi⟩ := checked_div_some v1 v2 res hcd
            simp only [hcd, Except.ok.injEq, Prod.mk.injEq] at h
            obtain ⟨rfl, rfl, rfl⟩ := h
            exact ⟨hlo, hhi, h3, h4⟩
          | none =>
            simp only [hcd] at h
            split_ifs at h

/-- No error produced by `stepChar` is `InputEmpty` or `InputNotComplete`. -/
lemma stepChar_error_not_reserved (c : Char) (v1 v2 : Int)
    (s : EvaluationStep) (e : EvaluationResult)
    (h : stepChar c v1 v2 s = .error e) : isReservedVariant e = false := by
  rcases stepChar_error_cases c v1 v2 s e h with
    rfl | rfl | rfl | rfl | rfl | ⟨o, rfl, -⟩
  · rfl
  · rfl
  · rfl
  · rfl
  · rfl
  · rfl

/-- The loop never produces `InputEmpty` or `InputNotComplete`. -/
lemma evalLoop_not_reserved (cs : List Char) : ∀ (v1 v2 : Int)
    (s : EvaluationStep), isReservedVariant (evalLoop cs v1 v2 s) = false := by
  induction cs with
  | nil => intro v1 v2 s; rfl
  | cons c cs ih =>
    intro v1 v2 s
    rw [evalLoop]
    cases hstep : stepChar c v1 v2 s with
    | ok t =>
      obtain ⟨a, b, s'⟩ := t
      simpa using ih a b s'
    | error e =>
      simpa using stepChar_error_not_reserved c v1 v2 s e hstep

/-- With the register invariant, a `stepChar` error is never a division
`Overflow`. -/
lemma stepChar_error_not_div (c : Char) (v1 v2 : Int) (s : EvaluationStep)
    (e : EvaluationResult) (h1 : I32_MIN ≤ v1) (h2 : v1 ≤ I32_MAX)
    (h3 : 0 ≤ v2) (h : stepChar c v1 v2 s = .error e) :
    isDivOverflow e = false := by
  rcases stepChar_error_cases c v1 v2 s e h with
    rfl | rfl | rfl | rfl | rfl | ⟨o, rfl, ho⟩
  · rfl
  · rfl
  · rfl
  · rfl
  · rfl
  · cases o with
    | Addition => rfl
    | Subtraction => rfl
    | Multiplication => rfl
    | Division =>
      obtain ⟨hcd, hz⟩ := ho rfl
      have hb : 1 ≤ v2 := by
        rcases lt_or_eq_of_le h3 with hlt | heq
        · linarith
        · exact absurd heq.symm hz
      rw [checked_div_pos v1 v2 hb h1 h2] at hcd
      exact absurd hcd (by simp)

/-- Under the register invariant the loop never returns a division
`Overflow`. -/
lemma evalLoop_no_div_overflow (cs : List Char) : ∀ (v1 v2 : Int)
    (s : EvaluationStep), I32_MIN ≤ v1 → v1 ≤ I32_MAX → 0 ≤ v2 →
    v2 ≤ I32_MAX → isDivOverflow (evalLoop cs v1 v2 s) = false := by
  induction cs with
  | nil => intro v1 v2 s _ _ _ _; rfl
  | cons c cs ih =>
    intro v1 v2 s h1 h2 h3 h4
    rw [evalLoop]
    cases hstep : stepChar c v1 v2 s with
    | ok t =>
      obtain ⟨a, b, s'⟩ := t
      obtain ⟨g1, g2, g3, g4⟩ :=
        stepChar_ok_invariant c v1 v2 s h1 h2 h3 h4 a b s' hstep
      simpa using ih a b s' g1 g2 g3 g4
    | error e =>
      simpa using stepChar_error_not_div c v1 v2 s e h1 h2 h3 hstep

/-- C7: `evaluate_rpn` never returns the reserved variants `InputEmpty` or
`InputNotComplete`: an all-whitespace (in particular empty) input returns
`Success 0`, and a trailing dangling operand as in `"1 1 + 2"` is silently
ignored, returning `Success` of the accumulated `value1`. -/
theorem claim_C7_reserved_variants_unreachable :
    (∀ l : List Char, isReservedVariant (evaluate_rpn l) = false) ∧
    (∀ l : List Char, l.all rust_is_whitespace = true →
      evaluate_rpn l = .Success 0) ∧
    evaluate_rpn ['1', ' ', '1', ' ', '+', ' ', '2'] = .Success 2 := by
  refine ⟨?_, ?_, by decide⟩
  · intro l
    exact evalLoop_not_reserved (trim l) 0 0 _
  · intro l h
    have htr : trim l = [] := by
      unfold trim
      have h1 : l.dropWhile rust_is_whitespace = [] :=
        List.dropWhile_eq_nil_iff.mpr (List.all_eq_true.mp h)
      rw [h1]
      rfl
    rw [evaluate_rpn, htr]
    rfl

/-- Witness for C7: the empty and the all-whitespace input both return
`Success 0`. -/
theorem claim_C7_reserved_variants_unreachable_witness :
    evaluate_rpn [] = .Success 0 ∧ evaluate_rpn [' ', ' '] = .Success 0 :=
  ⟨claim_C7_reserved_variants_unreachable.2.1 [] (by decide),
   claim_C7_reserved_variants_unreachable.2.1 [' ', ' '] (by decide)⟩

/-- C8: every space character advances the state machine one step along the
cycle Value1 → Value2 → Operator → Value2 → Operator → …, resetting `value2`
to 0 exactly when the new state is `ReadingValue2`; consecutive spaces are
not collapsed — e.g. `"1  2"` (two spaces) steps the machine twice and then
fails with `FoundNonOperator('2')`, while `"1 2"` returns `Success 1`. -/
theorem claim_C8_space_advances (v1 v2 : Int) (s : EvaluationStep) :
    stepChar ' ' v1 v2 s =
      .ok (v1, if s.advance = .ReadingValue2 then 0 else v2, s.advance) ∧
    EvaluationStep.ReadingValue1.advance = .ReadingValue2 ∧
    EvaluationStep.ReadingValue2.advance = .ReadingOperator ∧
    EvaluationStep.ReadingOperator.advance = .ReadingValue2 ∧
    evaluate_rpn ['1', ' ', ' ', '2'] = .FoundNonOperator '2' ∧
    evaluate_rpn ['1', ' ', '2'] = .Success 1 :=
  ⟨stepChar_space v1 v2 s, rfl, rfl, rfl, by decide, by decide⟩

/-- C9: the evaluator is a total function by construction in this embedding,
and the two source call sites that `unwrap` are infallible behind their
guards: after the `is_ascii_digit` guard, `to_digit` always yields a digit
value (at most 9, so the cast to i32 is exact), and after the
`is_valid_rpn_operator` guard, `RpnOperator::try_from` always succeeds. -/
theorem claim_C9_guards_make_unwraps_infallible :
    (∀ c : Char, is_ascii_digit c = true →
      (to_digit c).isSome = true ∧ (to_digit c).getD 0 ≤ 9) ∧
    (∀ c : Char, is_valid_rpn_operator c = true →
      (RpnOperator.tryFromChar c).isOk = true) := by
  constructor
  · intro c hc
    have hd : to_digit c = some (c.toNat - 48) := by
      simp [to_digit, hc]
    simp only [is_ascii_digit, decide_eq_true_eq] at hc
    rw [hd]
    exact ⟨rfl, by simp only [Option.getD_some]; omega⟩
  · intro c hv
    obtain ⟨o, ho⟩ := tryFromChar_ok_of_valid c hv
    rw [ho]
    rfl

/-- Witness for C9 at the digit `'7'` and the operator `'/'`. -/
theorem claim_C9_guards_make_unwraps_infallible_witness :
    ((to_digit '7').isSome = true ∧ (to_digit '7').getD 0 ≤ 9) ∧
    (RpnOperator.tryFromChar '/').isOk = true :=
  ⟨claim_C9_guards_make_unwraps_infallible.1 '7' (by decide),
   claim_C9_guards_make_unwraps_infallible.2 '/' (by decide)⟩

/-- C10: `value2` stays non-negative throughout evaluation, so a checked
division performed on invariant-respecting registers can only fail with a
zero divisor; consequently `evaluate_rpn` never returns an `Overflow` whose
attempted operation is `Division` — the `i32::MIN / -1` case is unreachable
through the public interface. -/
theorem claim_C10_division_overflow_unreachable :
    (∀ l : List Char, isDivOverflow (evaluate_rpn l) = false) ∧
    (∀ v1 v2 : Int, I32_MIN ≤ v1 → v1 ≤ I32_MAX → 0 ≤ v2 →
      checked_div v1 v2 = none → v2 = 0) := by
  constructor
  · intro l
    exact evalLoop_no_div_overflow (trim l) 0 0 .ReadingValue1 (by decide)
      (by decide) le_rfl (by decide)
  · intro v1 v2 h1 h2 h3 hn
    by_contra hz
    have hb : 1 ≤ v2 := by
      rcases lt_or_eq_of_le h3 with hlt | heq
      · linarith
      · exact absurd heq.symm hz
    rw [checked_div_pos v1 v2 hb h1 h2] at hn
    exact absurd hn (by simp)

/-- Witness for C10: the first conjunct on a concrete input that divides, and
the second conjunct at the concrete failing division `5040 / 0`. -/
theorem claim_C10_division_overflow_unreachable_witness :
    isDivOverflow (evaluate_rpn ['2', '0', '0', '4', ' ', '6', ' ', '/'])
      = false ∧ (0 : Int) = 0 :=
  ⟨claim_C10_division_overflow_unreachable.1
      ['2', '0', '0', '4', ' ', '6', ' ', '/'],
   claim_C10_division_overflow_unreachable.2 5040 0 (by decide) (by decide)
    le_rfl (by decide)⟩
